import Mathlib

/-
Verification of the ARMA Kalman-filter likelihood code.

The source builds state-space matrices for an ARMA(p, q) model
(initialize_FGHQ), runs a Kalman filter over an observation sequence
producing innovations e and innovation variances r, and evaluates the
concentrated Gaussian log-likelihood (log_likelihood), the objective
being its negation (obj_func_likelihood).

Numeric model: exact rationals for the filter arithmetic; real numbers
for the logarithmic likelihood.  Python array writes are modelled by
setEntry folds over index ranges; the float division z / r is modelled
by rational division (with division by zero yielding 0).
-/

namespace ArmaKalman

open Matrix

/-- Dimension of the state vector: k = max(p, q + 1) with p = len(a), q = len(b). -/
def kdim (a b : List ℚ) : ℕ := max a.length (b.length + 1)

lemma kdim_pos (a b : List ℚ) : 0 < kdim a b :=
  lt_of_lt_of_le (Nat.succ_pos _) (le_max_right _ _)

/-- A single array assignment M[i, j] = v, as performed inside the builder loops. -/
def setEntry {m n : ℕ} (M : Matrix (Fin m) (Fin n) ℚ) (i j : ℕ) (v : ℚ) :
    Matrix (Fin m) (Fin n) ℚ :=
  Matrix.of fun i2 j2 => if i2.val = i ∧ j2.val = j then v else M i2 j2

lemma setEntry_apply {m n : ℕ} (M : Matrix (Fin m) (Fin n) ℚ) (i j : ℕ) (v : ℚ)
    (i2 : Fin m) (j2 : Fin n) :
    setEntry M i j v i2 j2 = if i2.val = i ∧ j2.val = j then v else M i2 j2 := rfl

lemma foldl_setEntry_of_notMem {m n : ℕ} (f g : ℕ → ℕ) (v : ℕ → ℚ) (N : ℕ)
    (M : Matrix (Fin m) (Fin n) ℚ) (i2 : Fin m) (j2 : Fin n)
    (h : ∀ t, t < N → ¬(f t = i2.val ∧ g t = j2.val)) :
    ((List.range N).foldl (fun M2 t => setEntry M2 (f t) (g t) (v t)) M) i2 j2 = M i2 j2 := by
  induction N with
  | zero => simp
  | succ N ih =>
    rw [List.range_succ, List.foldl_append]
    simp only [List.foldl_cons, List.foldl_nil]
    rw [setEntry_apply, if_neg (fun hc => h N (Nat.lt_succ_self N) ⟨hc.1.symm, hc.2.symm⟩)]
    exact ih fun t ht => h t (Nat.lt_succ_of_lt ht)

lemma foldl_setEntry_of_hit {m n : ℕ} (f g : ℕ → ℕ) (v : ℕ → ℚ) (N : ℕ)
    (M : Matrix (Fin m) (Fin n) ℚ) (i2 : Fin m) (j2 : Fin n) (t0 : ℕ)
    (ht0 : t0 < N) (hf : f t0 = i2.val) (hg : g t0 = j2.val)
    (huniq : ∀ t, t < N → f t = i2.val → g t = j2.val → t = t0) :
    ((List.range N).foldl (fun M2 t => setEntry M2 (f t) (g t) (v t)) M) i2 j2 = v t0 := by
  induction N with
  | zero => exact absurd ht0 (Nat.not_lt_zero _)
  | succ N ih =>
    rw [List.range_succ, List.foldl_append]
    simp only [List.foldl_cons, List.foldl_nil]
    rw [setEntry_apply]
    by_cases hN : f N = i2.val ∧ g N = j2.val
    · rw [if_pos (⟨hN.1.symm, hN.2.symm⟩ : i2.val = f N ∧ j2.val = g N)]
      rw [huniq N (Nat.lt_succ_self N) hN.1 hN.2]
    · rw [if_neg (fun hc => hN ⟨hc.1.symm, hc.2.symm⟩)]
      have ht0N : t0 < N := by
        rcases Nat.lt_succ_iff_lt_or_eq.mp ht0 with h | h
        · exact h
        · exact absurd ⟨h ▸ hf, h ▸ hg⟩ hN
      exact ih ht0N fun t ht hft hgt => huniq t (Nat.lt_succ_of_lt ht) hft hgt

/-- Transition matrix F: column 0 filled with the AR coefficients a, then the
subdiagonal row i, column i + 1 set to 1, starting from the zero matrix. -/
def buildF (a b : List ℚ) : Matrix (Fin (kdim a b)) (Fin (kdim a b)) ℚ :=
  (List.range (kdim a b - 1)).foldl (fun M i => setEntry M i (i + 1) 1)
    ((List.range a.length).foldl (fun M i => setEntry M i 0 (a.getD i 0)) 0)

/-- Noise coefficient column G: rows i + 1 filled with the negated MA
coefficients b, then the first entry set to 1, starting from the zero column. -/
def buildG (a b : List ℚ) : Matrix (Fin (kdim a b)) (Fin 1) ℚ :=
  setEntry
    ((List.range b.length).foldl (fun M i => setEntry M (i + 1) 0 (-b.getD i 0)) 0) 0 0 1

/-- Observation row H: only the first entry is 1. -/
def buildH (a b : List ℚ) : Matrix (Fin 1) (Fin (kdim a b)) ℚ :=
  setEntry 0 0 0 1

/-- The state-space builder: returns F, G, H and the identity matrix Q. -/
def initialize_FGHQ (a b : List ℚ) :
    Matrix (Fin (kdim a b)) (Fin (kdim a b)) ℚ × Matrix (Fin (kdim a b)) (Fin 1) ℚ
      × Matrix (Fin 1) (Fin (kdim a b)) ℚ × Matrix (Fin (kdim a b)) (Fin (kdim a b)) ℚ :=
  (buildF a b, buildG a b, buildH a b, 1)

lemma buildF_apply (a b : List ℚ) (i j : Fin (kdim a b)) :
    buildF a b i j =
      if j.val = 0 ∧ i.val < a.length then a.getD i.val 0
      else if j.val = i.val + 1 then 1 else 0 := by
  unfold buildF
  by_cases hsub : j.val = i.val + 1
  · have hi : i.val < kdim a b - 1 := by
      have := j.isLt
      omega
    have h1 :
        ((List.range (kdim a b - 1)).foldl (fun M t => setEntry M t (t + 1) 1)
          ((List.range a.length).foldl (fun M t => setEntry M t 0 (a.getD t 0)) 0)) i j
          = (fun _ : ℕ => (1 : ℚ)) i.val :=
      foldl_setEntry_of_hit (fun t => t) (fun t => t + 1) (fun _ => (1 : ℚ)) _ _ i j i.val
        hi rfl hsub.symm (fun t _ hft _ => hft)
    rw [h1, if_neg (by omega), if_pos hsub]
  · have h1 :
        ((List.range (kdim a b - 1)).foldl (fun M t => setEntry M t (t + 1) 1)
          ((List.range a.length).foldl (fun M t => setEntry M t 0 (a.getD t 0)) 0)) i j
          = ((List.range a.length).foldl (fun M t => setEntry M t 0 (a.getD t 0))
              (0 : Matrix (Fin (kdim a b)) (Fin (kdim a b)) ℚ)) i j :=
      foldl_setEntry_of_notMem (fun t => t) (fun t => t + 1) (fun _ => (1 : ℚ)) _ _ i j
        (by intro t ht hc; exact hsub (hc.1 ▸ hc.2.symm))
    rw [h1]
    by_cases hcol : j.val = 0 ∧ i.val < a.length
    · have h2 :
          ((List.range a.length).foldl (fun M t => setEntry M t 0 (a.getD t 0))
            (0 : Matrix (Fin (kdim a b)) (Fin (kdim a b)) ℚ)) i j
            = (fun t : ℕ => a.getD t 0) i.val :=
        foldl_setEntry_of_hit (fun t => t) (fun _ => 0) (fun t => a.getD t 0) _ _ i j i.val
          hcol.2 rfl hcol.1.symm (fun t _ hft _ => hft)
      rw [h2, if_pos hcol]
    · have h2 :
          ((List.range a.length).foldl (fun M t => setEntry M t 0 (a.getD t 0))
            (0 : Matrix (Fin (kdim a b)) (Fin (kdim a b)) ℚ)) i j
            = (0 : Matrix (Fin (kdim a b)) (Fin (kdim a b)) ℚ) i j :=
        foldl_setEntry_of_notMem (fun t => t) (fun _ => 0) (fun t => a.getD t 0) _ _ i j
          (by
            intro t ht hc
            exact hcol ⟨hc.2.symm, hc.1 ▸ ht⟩)
      rw [h2, if_neg hcol, if_neg hsub]
      rfl

lemma buildG_apply (a b : List ℚ) (i : Fin (kdim a b)) (j : Fin 1) :
    buildG a b i j =
      if i.val = 0 then 1
      else if i.val < b.length + 1 then -b.getD (i.val - 1) 0 else 0 := by
  unfold buildG
  have hj : j.val = 0 := by omega
  rw [setEntry_apply]
  by_cases hi0 : i.val = 0
  · rw [if_pos ⟨hi0, hj⟩, if_pos hi0]
  · rw [if_neg (by intro hc; exact hi0 hc.1), if_neg hi0]
    by_cases hib : i.val < b.length + 1
    · have h2 :
          ((List.range b.length).foldl (fun M t => setEntry M (t + 1) 0 (-b.getD t 0))
            (0 : Matrix (Fin (kdim a b)) (Fin 1) ℚ)) i j
            = (fun t : ℕ => -b.getD t 0) (i.val - 1) :=
        foldl_setEntry_of_hit (fun t => t + 1) (fun _ => 0) (fun t => -b.getD t 0) _ _ i j
          (i.val - 1) (by omega) (by show i.val - 1 + 1 = i.val; omega) hj.symm
          (fun t _ hft _ => by
            have hft2 : t + 1 = i.val := hft
            omega)
      rw [h2, if_pos hib]
    · have h2 :
          ((List.range b.length).foldl (fun M t => setEntry M (t + 1) 0 (-b.getD t 0))
            (0 : Matrix (Fin (kdim a b)) (Fin 1) ℚ)) i j
            = (0 : Matrix (Fin (kdim a b)) (Fin 1) ℚ) i j :=
        foldl_setEntry_of_notMem (fun t => t + 1) (fun _ => 0) (fun t => -b.getD t 0) _ _ i j
          (by
            intro t ht hc
            have hc2 : t + 1 = i.val := hc.1
            omega)
      rw [h2, if_neg hib]
      rfl

lemma buildH_apply (a b : List ℚ) (i : Fin 1) (j : Fin (kdim a b)) :
    buildH a b i j = if j.val = 0 then 1 else 0 := by
  unfold buildH
  have hi : i.val = 0 := by omega
  rw [setEntry_apply]
  by_cases hj : j.val = 0
  · rw [if_pos ⟨hi, hj⟩, if_pos hj]
  · rw [if_neg (by intro hc; exact hj hc.2), if_neg hj]
    rfl

section Kalman

variable {k : ℕ}

/-- One iteration of the Kalman loop body: from the current state (x, V) and
the observation yt, produce the updated state together with the innovation e
and its predictive variance r stored at this step. -/
def kstep (F : Matrix (Fin k) (Fin k) ℚ) (G : Matrix (Fin k) (Fin 1) ℚ)
    (H : Matrix (Fin 1) (Fin k) ℚ) (yt : ℚ)
    (x : Matrix (Fin k) (Fin 1) ℚ) (V : Matrix (Fin k) (Fin k) ℚ) :
    (Matrix (Fin k) (Fin 1) ℚ × Matrix (Fin k) (Fin k) ℚ) × ℚ × ℚ :=
  let x_predict := F * x
  let V_predict := F * V * F.transpose + G * G.transpose
  let e := yt - (H * x_predict) 0 0
  let r := (H * V_predict * H.transpose) 0 0
  let K := (V_predict * H.transpose).map (fun z => z / r)
  ((x_predict + K.map (fun z => z * e), (1 - K * H) * V_predict), e, r)

/-- The Kalman loop over the observation list: threads the state through
kstep and collects the pairs (e t, r t), exactly as the source loop fills
the arrays e and r. -/
def kalmanPairs (F : Matrix (Fin k) (Fin k) ℚ) (G : Matrix (Fin k) (Fin 1) ℚ)
    (H : Matrix (Fin 1) (Fin k) ℚ) :
    List ℚ → Matrix (Fin k) (Fin 1) ℚ → Matrix (Fin k) (Fin k) ℚ → List (ℚ × ℚ)
  | [], _, _ => []
  | yt :: ys, x, V =>
    (kstep F G H yt x V).2 ::
      kalmanPairs F G H ys (kstep F G H yt x V).1.1 (kstep F G H yt x V).1.2

/-- The state (x, V) after t steps of the recursion: x starts at 0 and V at
100 times the identity; each step performs the predict and update equations
of the loop body. -/
def filterState (F : Matrix (Fin k) (Fin k) ℚ) (G : Matrix (Fin k) (Fin 1) ℚ)
    (H : Matrix (Fin 1) (Fin k) ℚ) (y : ℕ → ℚ) :
    ℕ → Matrix (Fin k) (Fin 1) ℚ × Matrix (Fin k) (Fin k) ℚ
  | 0 => (0, (100 : ℚ) • 1)
  | t + 1 =>
    let s := filterState F G H y t
    let x_pred := F * s.1
    let V_pred := F * s.2 * F.transpose + G * G.transpose
    let e := y t - (H * x_pred) 0 0
    let r := (H * V_pred * H.transpose) 0 0
    let K := (V_pred * H.transpose).map (fun z => z / r)
    (x_pred + K.map (fun z => z * e), (1 - K * H) * V_pred)

/-- Innovation at step t: e t = y t minus H times the one-step state
prediction F x. -/
def innov (F : Matrix (Fin k) (Fin k) ℚ) (G : Matrix (Fin k) (Fin 1) ℚ)
    (H : Matrix (Fin 1) (Fin k) ℚ) (y : ℕ → ℚ) (t : ℕ) : ℚ :=
  y t - (H * (F * (filterState F G H y t).1)) 0 0

/-- Innovation variance at step t: r t = H V_pred H transposed, with
V_pred = F V F transposed + G G transposed. -/
def innovVar (F : Matrix (Fin k) (Fin k) ℚ) (G : Matrix (Fin k) (Fin 1) ℚ)
    (H : Matrix (Fin 1) (Fin k) ℚ) (y : ℕ → ℚ) (t : ℕ) : ℚ :=
  (H * (F * (filterState F G H y t).2 * F.transpose + G * G.transpose) * H.transpose) 0 0

/-- Predicted covariance at step t of the recursion. -/
def Vpred (F : Matrix (Fin k) (Fin k) ℚ) (G : Matrix (Fin k) (Fin 1) ℚ)
    (H : Matrix (Fin 1) (Fin k) ℚ) (y : ℕ → ℚ) (t : ℕ) :
    Matrix (Fin k) (Fin k) ℚ :=
  F * (filterState F G H y t).2 * F.transpose + G * G.transpose

lemma kalmanPairs_length (F : Matrix (Fin k) (Fin k) ℚ) (G : Matrix (Fin k) (Fin 1) ℚ)
    (H : Matrix (Fin 1) (Fin k) ℚ) :
    ∀ (ys : List ℚ) (x : Matrix (Fin k) (Fin 1) ℚ) (V : Matrix (Fin k) (Fin k) ℚ),
      (kalmanPairs F G H ys x V).length = ys.length
  | [], _, _ => rfl
  | _ :: ys, x, V => by
    simp only [kalmanPairs, List.length_cons]
    rw [kalmanPairs_length F G H ys]

lemma kstep_state_eq_filterState (F : Matrix (Fin k) (Fin k) ℚ)
    (G : Matrix (Fin k) (Fin 1) ℚ) (H : Matrix (Fin 1) (Fin k) ℚ)
    (y : ℕ → ℚ) (t : ℕ) :
    (kstep F G H (y t) (filterState F G H y t).1 (filterState F G H y t).2).1 =
      filterState F G H y (t + 1) := rfl

lemma kstep_er_eq (F : Matrix (Fin k) (Fin k) ℚ)
    (G : Matrix (Fin k) (Fin 1) ℚ) (H : Matrix (Fin 1) (Fin k) ℚ)
    (y : ℕ → ℚ) (t : ℕ) :
    (kstep F G H (y t) (filterState F G H y t).1 (filterState F G H y t).2).2 =
      (innov F G H y t, innovVar F G H y t) := rfl

lemma kalmanPairs_getElem (F : Matrix (Fin k) (Fin k) ℚ) (G : Matrix (Fin k) (Fin 1) ℚ)
    (H : Matrix (Fin 1) (Fin k) ℚ) (yf : ℕ → ℚ) :
    ∀ (ys : List ℚ) (t0 : ℕ),
      (∀ i, i < ys.length → ys.getD i 0 = yf (t0 + i)) →
      ∀ t : ℕ,
        (kalmanPairs F G H ys (filterState F G H yf t0).1 (filterState F G H yf t0).2)[t]? =
          if t < ys.length then
            some (innov F G H yf (t0 + t), innovVar F G H yf (t0 + t))
          else none := by
  intro ys
  induction ys with
  | nil =>
    intro t0 _ t
    simp [kalmanPairs]
  | cons yt ys ih =>
    intro t0 hobs t
    have hyt : yt = yf t0 := by
      have := hobs 0 (Nat.succ_pos _)
      simpa using this
    subst hyt
    cases t with
    | zero =>
      simp only [kalmanPairs, List.getElem?_cons_zero, List.length_cons,
        Nat.zero_lt_succ, if_true, Nat.add_zero]
      rw [kstep_er_eq]
    | succ t =>
      simp only [kalmanPairs, List.getElem?_cons_succ, List.length_cons]
      have hstep := kstep_state_eq_filterState F G H yf t0
      rw [show (kstep F G H (yf t0) (filterState F G H yf t0).1
            (filterState F G H yf t0).2).1.1 = (filterState F G H yf (t0 + 1)).1 from
          congrArg Prod.fst hstep,
        show (kstep F G H (yf t0) (filterState F G H yf t0).1
            (filterState F G H yf t0).2).1.2 = (filterState F G H yf (t0 + 1)).2 from
          congrArg Prod.snd hstep]
      have hobs2 : ∀ i, i < ys.length → ys.getD i 0 = yf (t0 + 1 + i) := by
        intro i hi
        have := hobs (i + 1) (Nat.succ_lt_succ hi)
        simpa [Nat.add_assoc, Nat.add_comm 1 i] using this
      rw [ih (t0 + 1) hobs2 t]
      have harith : t0 + 1 + t = t0 + (t + 1) := by omega
      rw [harith]
      by_cases hlt : t < ys.length
      · rw [if_pos hlt, if_pos (Nat.succ_lt_succ hlt)]
      · rw [if_neg hlt, if_neg (fun hc => hlt (Nat.lt_of_succ_lt_succ hc))]

end Kalman

/-- Innovation list of the objective function: theta is sliced into the first
3 AR coefficients and the next 2 MA coefficients, the state-space model is
built, and the Kalman loop is run from x = 0, V = 100 times the identity. -/
def kalmanEs (y theta : List ℚ) : List ℚ :=
  (kalmanPairs (initialize_FGHQ (theta.take 3) ((theta.drop 3).take 2)).1
    (initialize_FGHQ (theta.take 3) ((theta.drop 3).take 2)).2.1
    (initialize_FGHQ (theta.take 3) ((theta.drop 3).take 2)).2.2.1
    y 0 ((100 : ℚ) • 1)).map Prod.fst

/-- Claim C1: for every state-space model built from coefficient vectors and
every observation list y, the Kalman loop started from x = 0 and
V = 100 times the identity produces exactly y.length pairs, and the pair at
each index t < y.length consists of the innovation
e t = y t - H (F x t) and the variance r t = H (F V t F + G G) H of the
recursion with the claimed predict and update equations. -/
theorem c1_kalman_recursion (a b y : List ℚ) (t : ℕ) :
    (kalmanPairs (initialize_FGHQ a b).1 (initialize_FGHQ a b).2.1
        (initialize_FGHQ a b).2.2.1 y 0 ((100 : ℚ) • 1)).length = y.length
    ∧ (kalmanPairs (initialize_FGHQ a b).1 (initialize_FGHQ a b).2.1
        (initialize_FGHQ a b).2.2.1 y 0 ((100 : ℚ) • 1))[t]? =
      if t < y.length then
        some (innov (initialize_FGHQ a b).1 (initialize_FGHQ a b).2.1
            (initialize_FGHQ a b).2.2.1 (fun i => y.getD i 0) t,
          innovVar (initialize_FGHQ a b).1 (initialize_FGHQ a b).2.1
            (initialize_FGHQ a b).2.2.1 (fun i => y.getD i 0) t)
      else none := by
  constructor
  · exact kalmanPairs_length _ _ _ y 0 _
  · have h := kalmanPairs_getElem (initialize_FGHQ a b).1 (initialize_FGHQ a b).2.1
      (initialize_FGHQ a b).2.2.1 (fun i => y.getD i 0) y 0
      (fun i _ => by simp) t
    simp only [Nat.zero_add] at h
    exact h

/-- Claim C10: the first innovation of the objective pipeline equals the
first observation, for every coefficient vector theta and observation list y,
because the state starts at the zero vector. -/
theorem c10_first_innovation (theta y : List ℚ) :
    (kalmanEs y theta).head? = y.head? := by
  cases y with
  | nil => rfl
  | cons yt ys =>
    simp [kalmanEs, kalmanPairs, kstep, Matrix.mul_zero, Matrix.zero_apply, sub_zero]

lemma kalmanPairs_zero_run :
    kalmanPairs (0 : Matrix (Fin 1) (Fin 1) ℚ) (0 : Matrix (Fin 1) (Fin 1) ℚ)
      (0 : Matrix (Fin 1) (Fin 1) ℚ) [1] 0 ((100 : ℚ) • 1) = [(1, 0)] := by
  simp [kalmanPairs, kstep, Matrix.zero_mul, Matrix.mul_zero, Matrix.transpose_zero,
    Matrix.zero_apply, sub_zero]

/-- Counterexample to claim C4: a run whose first innovation variance is 0
does not fail; the loop performs the division by r anyway and returns the
full output list, here with e 0 = 1 and r 0 = 0. -/
theorem c4_counterexample :
    kalmanPairs (0 : Matrix (Fin 1) (Fin 1) ℚ) (0 : Matrix (Fin 1) (Fin 1) ℚ)
      (0 : Matrix (Fin 1) (Fin 1) ℚ) [1] 0 ((100 : ℚ) • 1) = [(1, 0)] :=
  kalmanPairs_zero_run

/-- Claim C4 as amended: the recursion performs no check on r: even when
some produced variance r t is non-positive, it completes and produces
innovation and variance sequences of full length y.length (the division by a
zero r yields 0 in this exact model, where floating point yields inf or NaN,
and the non-positive variance flows to the downstream logarithm). -/
theorem c4_no_instability_check {k : ℕ} (F : Matrix (Fin k) (Fin k) ℚ)
    (G : Matrix (Fin k) (Fin 1) ℚ) (H : Matrix (Fin 1) (Fin k) ℚ)
    (y : List ℚ) (x : Matrix (Fin k) (Fin 1) ℚ) (V : Matrix (Fin k) (Fin k) ℚ)
    (h : ∃ pr ∈ kalmanPairs F G H y x V, pr.2 ≤ 0) :
    (kalmanPairs F G H y x V).length = y.length :=
  kalmanPairs_length F G H y x V

/-- Witness for c4_no_instability_check at a concrete input with r 0 = 0. -/
theorem c4_no_instability_check_witness :
    (∃ pr ∈ kalmanPairs (0 : Matrix (Fin 1) (Fin 1) ℚ) (0 : Matrix (Fin 1) (Fin 1) ℚ)
        (0 : Matrix (Fin 1) (Fin 1) ℚ) [1] 0 ((100 : ℚ) • 1), pr.2 ≤ 0)
    ∧ (kalmanPairs (0 : Matrix (Fin 1) (Fin 1) ℚ) (0 : Matrix (Fin 1) (Fin 1) ℚ)
        (0 : Matrix (Fin 1) (Fin 1) ℚ) [1] 0 ((100 : ℚ) • 1)).length =
      ([1] : List ℚ).length :=
  ⟨by rw [kalmanPairs_zero_run]; exact ⟨(1, 0), by simp⟩,
    c4_no_instability_check _ _ _ _ _ _
      (by rw [kalmanPairs_zero_run]; exact ⟨(1, 0), by simp⟩)⟩

/-- Claim C3: the builder returns F, G, H of dimension k = max(p, q + 1)
with column 0 of F holding the AR coefficients on rows below p, the
subdiagonal of F equal to 1, G starting with 1 followed by the negated MA
coefficients, H selecting the first state component, and all other entries 0. -/
theorem c3_builder_shape (a b : List ℚ) (i j : Fin (kdim a b)) (u : Fin 1) :
    kdim a b = max a.length (b.length + 1)
    ∧ (initialize_FGHQ a b).1 i j =
        (if j.val = 0 ∧ i.val < a.length then a.getD i.val 0
          else if j.val = i.val + 1 then 1 else 0)
    ∧ (initialize_FGHQ a b).2.1 i u =
        (if i.val = 0 then 1
          else if i.val < b.length + 1 then -b.getD (i.val - 1) 0 else 0)
    ∧ (initialize_FGHQ a b).2.2.1 u j = (if j.val = 0 then 1 else 0) :=
  ⟨rfl, buildF_apply a b i j, buildG_apply a b i u, buildH_apply a b u j⟩

/-- Claim C6: the orders p and q used by the builder are the actual lengths
of the coefficient lists, so they can never be negative and no declared
length can disagree with an actual length; the builder succeeds on every
input, producing a positive state dimension and the identity matrix Q. -/
theorem c6_builder_never_fails (a b : List ℚ) :
    ¬(((a.length : ℤ) < 0) ∨ ((b.length : ℤ) < 0))
    ∧ 0 < kdim a b
    ∧ (initialize_FGHQ a b).2.2.2 = 1 :=
  ⟨by rintro (h | h) <;> omega, kdim_pos a b, rfl⟩

/-- Claim C8: edge cases of the builder.  For p = 1, q = 0 the dimension is
k = 1 and F = [[a1]], G = [[1]], H = [[1]].  For p = 0 the AR contribution is
absent from F, which holds only the subdiagonal; for q = 0 the MA
contribution is absent from G, which is the first standard basis column. -/
theorem c8_edge_cases :
    (∀ a1 : ℚ,
        kdim [a1] [] = 1
        ∧ (∀ i j : Fin (kdim [a1] []), (initialize_FGHQ [a1] []).1 i j = a1)
        ∧ (∀ (i : Fin (kdim [a1] [])) (u : Fin 1), (initialize_FGHQ [a1] []).2.1 i u = 1)
        ∧ (∀ (u : Fin 1) (j : Fin (kdim [a1] [])), (initialize_FGHQ [a1] []).2.2.1 u j = 1))
    ∧ (∀ b : List ℚ,
        kdim [] b = b.length + 1
        ∧ ∀ i j : Fin (kdim [] b),
            (initialize_FGHQ [] b).1 i j = if j.val = i.val + 1 then 1 else 0)
    ∧ (∀ (a : List ℚ) (i : Fin (kdim a [])) (u : Fin 1),
        (initialize_FGHQ a []).2.1 i u = if i.val = 0 then 1 else 0) := by
  refine ⟨fun a1 => ⟨rfl, fun i j => ?_, fun i u => ?_, fun u j => ?_⟩,
    fun b => ⟨by simp [kdim], fun i j => ?_⟩, fun a i u => ?_⟩
  · have hi : i.val = 0 := by
      have h2 := i.isLt
      have h3 : kdim [a1] [] = 1 := rfl
      omega
    have hj : j.val = 0 := by
      have h2 := j.isLt
      have h3 : kdim [a1] [] = 1 := rfl
      omega
    show buildF [a1] [] i j = a1
    rw [buildF_apply, if_pos ⟨hj, by rw [hi]; exact Nat.one_pos⟩, hi]
    rfl
  · have hi : i.val = 0 := by
      have h2 := i.isLt
      have h3 : kdim [a1] [] = 1 := rfl
      omega
    show buildG [a1] [] i u = 1
    rw [buildG_apply, if_pos hi]
  · have hj : j.val = 0 := by
      have h2 := j.isLt
      have h3 : kdim [a1] [] = 1 := rfl
      omega
    show buildH [a1] [] u j = 1
    rw [buildH_apply, if_pos hj]
  · show buildF [] b i j = if j.val = i.val + 1 then 1 else 0
    rw [buildF_apply]
    simp only [List.length_nil]
    rw [if_neg (by omega)]
  · show buildG a [] i u = if i.val = 0 then 1 else 0
    rw [buildG_apply]
    simp only [List.length_nil, Nat.zero_add]
    by_cases hi : i.val = 0
    · rw [if_pos hi, if_pos hi]
    · rw [if_neg hi, if_neg hi, if_neg (by omega)]

section Covariance

lemma dotSelf_nonneg {m : ℕ} (v : Fin m → ℚ) : 0 ≤ v ⬝ᵥ v :=
  Finset.sum_nonneg fun i _ => mul_self_nonneg (v i)

lemma psd_congrForm {m n : ℕ} (F : Matrix (Fin m) (Fin n) ℚ) (V : Matrix (Fin n) (Fin n) ℚ)
    (hp : ∀ w, 0 ≤ w ⬝ᵥ V *ᵥ w) (v : Fin m → ℚ) :
    0 ≤ v ⬝ᵥ (F * V * F.transpose) *ᵥ v := by
  rw [← Matrix.mulVec_mulVec, ← Matrix.mulVec_mulVec, Matrix.dotProduct_mulVec,
    ← Matrix.mulVec_transpose]
  exact hp _

lemma psd_selfProd {m n : ℕ} (G : Matrix (Fin m) (Fin n) ℚ) (v : Fin m → ℚ) :
    0 ≤ v ⬝ᵥ (G * G.transpose) *ᵥ v := by
  rw [← Matrix.mulVec_mulVec, Matrix.dotProduct_mulVec, ← Matrix.mulVec_transpose]
  exact dotSelf_nonneg _

lemma symm_congrForm {m n : ℕ} (F : Matrix (Fin m) (Fin n) ℚ) (V : Matrix (Fin n) (Fin n) ℚ)
    (hs : V.IsSymm) : (F * V * F.transpose).IsSymm := by
  have h : (F * V * F.transpose).transpose = F * V * F.transpose := by
    rw [Matrix.transpose_mul, Matrix.transpose_mul, Matrix.transpose_transpose, hs.eq,
      Matrix.mul_assoc]
  exact h

lemma symm_selfProd {m n : ℕ} (G : Matrix (Fin m) (Fin n) ℚ) : (G * G.transpose).IsSymm := by
  have h : (G * G.transpose).transpose = G * G.transpose := by
    rw [Matrix.transpose_mul, Matrix.transpose_transpose]
  exact h

lemma symm_swap {n : ℕ} (A : Matrix (Fin n) (Fin n) ℚ) (hs : A.IsSymm) (u v : Fin n → ℚ) :
    u ⬝ᵥ A *ᵥ v = v ⬝ᵥ A *ᵥ u :=
  calc u ⬝ᵥ A *ᵥ v = (u ᵥ* A) ⬝ᵥ v := Matrix.dotProduct_mulVec u A v
    _ = (u ᵥ* A.transpose) ⬝ᵥ v := by rw [hs.eq]
    _ = (A *ᵥ u) ⬝ᵥ v := by rw [Matrix.vecMul_transpose]
    _ = v ⬝ᵥ A *ᵥ u := Matrix.dotProduct_comm _ _

lemma cauchy_schwarz_psd {n : ℕ} (A : Matrix (Fin n) (Fin n) ℚ) (hs : A.IsSymm)
    (hp : ∀ w, 0 ≤ w ⬝ᵥ A *ᵥ w) (u v : Fin n → ℚ) :
    (v ⬝ᵥ A *ᵥ u) * (v ⬝ᵥ A *ᵥ u) ≤ (v ⬝ᵥ A *ᵥ v) * (u ⬝ᵥ A *ᵥ u) := by
  have hquad : ∀ x : ℚ,
      0 ≤ (u ⬝ᵥ A *ᵥ u) * (x * x) + 2 * (v ⬝ᵥ A *ᵥ u) * x + v ⬝ᵥ A *ᵥ v := by
    intro x
    have h0 := hp (v + x • u)
    have hexp : (v + x • u) ⬝ᵥ A *ᵥ (v + x • u) =
        (u ⬝ᵥ A *ᵥ u) * (x * x) + 2 * (v ⬝ᵥ A *ᵥ u) * x + v ⬝ᵥ A *ᵥ v := by
      simp only [Matrix.mulVec_add, Matrix.mulVec_smul, Matrix.dotProduct_add,
        Matrix.add_dotProduct, Matrix.dotProduct_smul, Matrix.smul_dotProduct, smul_eq_mul]
      rw [symm_swap A hs u v]
      ring
    rw [hexp] at h0
    exact h0
  have hd := discrim_le_zero hquad
  unfold discrim at hd
  nlinarith [hd]

lemma mapDiv_eq_smul {m n : ℕ} (M : Matrix (Fin m) (Fin n) ℚ) (r : ℚ) :
    M.map (fun z => z / r) = r⁻¹ • M := by
  ext i j
  simp only [Matrix.map_apply, Matrix.smul_apply, smul_eq_mul, div_eq_mul_inv]
  ring

lemma quadForm_entry {n : ℕ} (Hm : Matrix (Fin 1) (Fin n) ℚ) (A : Matrix (Fin n) (Fin n) ℚ) :
    (Hm * A * Hm.transpose) 0 0 = (fun j => Hm 0 j) ⬝ᵥ A *ᵥ (fun j => Hm 0 j) := by
  simp only [Matrix.mul_apply, Matrix.dotProduct, Matrix.mulVec, Matrix.transpose_apply,
    Finset.sum_mul, Finset.mul_sum]
  rw [Finset.sum_comm]
  refine Finset.sum_congr rfl fun i _ => Finset.sum_congr rfl fun j _ => by ring

lemma sandwich_eval {n : ℕ} (Hm : Matrix (Fin 1) (Fin n) ℚ) (A : Matrix (Fin n) (Fin n) ℚ)
    (v : Fin n → ℚ) :
    v ⬝ᵥ (A * Hm.transpose * Hm * A) *ᵥ v =
      (v ⬝ᵥ A *ᵥ (fun j => Hm 0 j)) * ((fun j => Hm 0 j) ⬝ᵥ A *ᵥ v) := by
  have hmid : Hm.transpose *ᵥ (Hm *ᵥ (A *ᵥ v)) =
      ((fun j => Hm 0 j) ⬝ᵥ A *ᵥ v) • (fun j => Hm 0 j) := by
    funext i
    simp only [Matrix.mulVec, Matrix.dotProduct, Matrix.transpose_apply, Pi.smul_apply,
      smul_eq_mul, Fin.sum_univ_one]
    ring
  rw [← Matrix.mulVec_mulVec, ← Matrix.mulVec_mulVec, ← Matrix.mulVec_mulVec, hmid,
    Matrix.mulVec_smul, Matrix.dotProduct_smul, smul_eq_mul, mul_comm]

lemma update_V_symm_psd {n : ℕ} (Hm : Matrix (Fin 1) (Fin n) ℚ)
    (Vp : Matrix (Fin n) (Fin n) ℚ) (hs : Vp.IsSymm) (hp : ∀ w, 0 ≤ w ⬝ᵥ Vp *ᵥ w) :
    ((1 - (Vp * Hm.transpose).map
        (fun z => z / (Hm * Vp * Hm.transpose) 0 0) * Hm) * Vp).IsSymm
    ∧ ∀ v, 0 ≤ v ⬝ᵥ ((1 - (Vp * Hm.transpose).map
        (fun z => z / (Hm * Vp * Hm.transpose) 0 0) * Hm) * Vp) *ᵥ v := by
  have hmat : (1 - (Vp * Hm.transpose).map
        (fun z => z / (Hm * Vp * Hm.transpose) 0 0) * Hm) * Vp =
      Vp - ((Hm * Vp * Hm.transpose) 0 0)⁻¹ • (Vp * Hm.transpose * Hm * Vp) := by
    rw [mapDiv_eq_smul, Matrix.sub_mul, Matrix.one_mul, Matrix.smul_mul, Matrix.smul_mul]
  constructor
  · rw [hmat]
    have h : (Vp - ((Hm * Vp * Hm.transpose) 0 0)⁻¹ • (Vp * Hm.transpose * Hm * Vp)).transpose
        = Vp - ((Hm * Vp * Hm.transpose) 0 0)⁻¹ • (Vp * Hm.transpose * Hm * Vp) := by
      rw [Matrix.transpose_sub, Matrix.transpose_smul, hs.eq]
      congr 2
      rw [Matrix.transpose_mul, Matrix.transpose_mul, Matrix.transpose_mul,
        Matrix.transpose_transpose, hs.eq, Matrix.mul_assoc, Matrix.mul_assoc]
    exact h
  · intro v
    rw [hmat, Matrix.sub_mulVec, Matrix.dotProduct_sub, Matrix.smul_mulVec_assoc,
      Matrix.dotProduct_smul, smul_eq_mul, sandwich_eval,
      symm_swap Vp hs (fun j => Hm 0 j) v]
    rcases eq_or_ne ((Hm * Vp * Hm.transpose) 0 0) 0 with hr | hr
    · have hz : ((0 : ℚ))⁻¹ = 0 := by norm_num
      rw [hr, hz, zero_mul, sub_zero]
      exact hp v
    · have hrq : (Hm * Vp * Hm.transpose) 0 0 =
          (fun j => Hm 0 j) ⬝ᵥ Vp *ᵥ (fun j => Hm 0 j) := quadForm_entry Hm Vp
      have hrpos : 0 < (Hm * Vp * Hm.transpose) 0 0 :=
        lt_of_le_of_ne (hrq ▸ hp (fun j => Hm 0 j)) (Ne.symm hr)
      have hcs := cauchy_schwarz_psd Vp hs hp (fun j => Hm 0 j) v
      rw [← hrq] at hcs
      have hmul := mul_le_mul_of_nonneg_left hcs (inv_nonneg.mpr hrpos.le)
      have hcancel : ((Hm * Vp * Hm.transpose) 0 0)⁻¹ *
          ((v ⬝ᵥ Vp *ᵥ v) * (Hm * Vp * Hm.transpose) 0 0) = v ⬝ᵥ Vp *ᵥ v := by
        field_simp
      linarith [hmul, hcancel ▸ hmul]

lemma filterState_V_invariant {k : ℕ} (F : Matrix (Fin k) (Fin k) ℚ)
    (G : Matrix (Fin k) (Fin 1) ℚ) (H : Matrix (Fin 1) (Fin k) ℚ)
    (y : ℕ → ℚ) (t : ℕ) :
    (filterState F G H y t).2.IsSymm
    ∧ ∀ v, 0 ≤ v ⬝ᵥ (filterState F G H y t).2 *ᵥ v := by
  induction t with
  | zero =>
    constructor
    · have h : ((100 : ℚ) • (1 : Matrix (Fin k) (Fin k) ℚ)).transpose
          = (100 : ℚ) • (1 : Matrix (Fin k) (Fin k) ℚ) := by
        rw [Matrix.transpose_smul, Matrix.transpose_one]
      exact h
    · intro v
      have h : v ⬝ᵥ ((100 : ℚ) • (1 : Matrix (Fin k) (Fin k) ℚ)) *ᵥ v = 100 * (v ⬝ᵥ v) := by
        rw [Matrix.smul_mulVec_assoc, Matrix.one_mulVec, Matrix.dotProduct_smul, smul_eq_mul]
      show 0 ≤ v ⬝ᵥ ((100 : ℚ) • (1 : Matrix (Fin k) (Fin k) ℚ)) *ᵥ v
      rw [h]
      exact mul_nonneg (by norm_num) (dotSelf_nonneg v)
  | succ t ih =>
    have hVp_symm : (F * (filterState F G H y t).2 * F.transpose + G * G.transpose).IsSymm :=
      (symm_congrForm F _ ih.1).add (symm_selfProd G)
    have hVp_psd : ∀ v,
        0 ≤ v ⬝ᵥ (F * (filterState F G H y t).2 * F.transpose + G * G.transpose) *ᵥ v := by
      intro v
      rw [Matrix.add_mulVec, Matrix.dotProduct_add]
      exact add_nonneg (psd_congrForm F _ ih.2 v) (psd_selfProd G v)
    exact update_V_symm_psd H
      (F * (filterState F G H y t).2 * F.transpose + G * G.transpose) hVp_symm hVp_psd

/-- Claim C7: for every coefficient choice (stability is not needed in exact
arithmetic) and every observation sequence, the predicted covariance
V_pred = F V Fᵀ + G Gᵀ at every step t of the recursion is symmetric and
positive semi-definite. -/
theorem c7_Vpred_symm_psd (a b : List ℚ) (y : ℕ → ℚ) (t : ℕ) :
    (Vpred (initialize_FGHQ a b).1 (initialize_FGHQ a b).2.1
        (initialize_FGHQ a b).2.2.1 y t).IsSymm
    ∧ ∀ v, 0 ≤ v ⬝ᵥ (Vpred (initialize_FGHQ a b).1 (initialize_FGHQ a b).2.1
        (initialize_FGHQ a b).2.2.1 y t) *ᵥ v := by
  have ih := filterState_V_invariant (initialize_FGHQ a b).1 (initialize_FGHQ a b).2.1
    (initialize_FGHQ a b).2.2.1 y t
  unfold Vpred
  refine ⟨(symm_congrForm _ _ ih.1).add (symm_selfProd _), fun v => ?_⟩
  rw [Matrix.add_mulVec, Matrix.dotProduct_add]
  exact add_nonneg (psd_congrForm _ _ ih.2 v) (psd_selfProd _ v)

end Covariance

section Likelihood

/-- Concentrated log-likelihood of the innovations, with N = len(r):
log L = -0.5 (N log(2 pi) + N log sigma_hat + sum of log r + N). -/
noncomputable def log_likelihood (sigma_hat : ℝ) (r : List ℝ) : ℝ :=
  -0.5 * ((r.length : ℝ) * Real.log (2 * Real.pi)
    + (r.length : ℝ) * Real.log sigma_hat
    + (r.map Real.log).sum + (r.length : ℝ))

/-- Tail of the objective function: sigma_hat = sum(e^2 / r) / N followed by
the negated log-likelihood. -/
noncomputable def obj_tail (e r : List ℝ) : ℝ :=
  -(log_likelihood ((List.zipWith (fun et rt => et ^ 2 / rt) e r).sum / (r.length : ℝ)) r)

lemma list_map_sum_range (l : List ℝ) (f : ℝ → ℝ) :
    (l.map f).sum = ∑ i in Finset.range l.length, f (l.getD i 0) := by
  induction l with
  | nil => simp
  | cons x xs ih =>
    simp only [List.map_cons, List.sum_cons, List.length_cons]
    rw [Finset.sum_range_succ']
    simp only [List.getD_cons_succ, List.getD_cons_zero]
    rw [ih]
    exact add_comm _ _

lemma zipWith_sq_div_sum :
    ∀ e r : List ℝ, e.length = r.length →
      (List.zipWith (fun et rt => et ^ 2 / rt) e r).sum
        = ∑ i in Finset.range r.length, (e.getD i 0) ^ 2 / r.getD i 0
  | [], [], _ => by simp
  | [], _ :: _, h => by simp at h
  | _ :: _, [], h => by simp at h
  | x :: xs, z :: zs, h => by
    simp only [List.zipWith_cons_cons, List.sum_cons, List.length_cons]
    rw [Finset.sum_range_succ']
    simp only [List.getD_cons_succ, List.getD_cons_zero]
    rw [zipWith_sq_div_sum xs zs (by simpa using h)]
    exact add_comm _ _

lemma obj_tail_formula (e r : List ℝ) (hlen : e.length = r.length) :
    obj_tail e r = 0.5 * ((r.length : ℝ) * Real.log (2 * Real.pi)
      + (r.length : ℝ) * Real.log ((1 / (r.length : ℝ))
          * ∑ t in Finset.range r.length, (e.getD t 0) ^ 2 / r.getD t 0)
      + (∑ t in Finset.range r.length, Real.log (r.getD t 0))
      + (r.length : ℝ)) := by
  unfold obj_tail log_likelihood
  rw [zipWith_sq_div_sum e r hlen, list_map_sum_range r Real.log]
  rw [show (∑ t in Finset.range r.length, (e.getD t 0) ^ 2 / r.getD t 0) / (r.length : ℝ)
      = (1 / (r.length : ℝ)) * ∑ t in Finset.range r.length, (e.getD t 0) ^ 2 / r.getD t 0
    from by ring]
  ring

/-- Claim C2: on innovations e and variances r of length N with positive
variances, the likelihood evaluator computes sigma_hat as the mean of
e t squared over r t, the concentrated log-likelihood by the stated closed
formula, and the objective returns its negation. -/
theorem c2_likelihood_formula (e r : List ℝ) (N : ℕ)
    (he : e.length = N) (hr : r.length = N) (hpos : ∀ x ∈ r, 0 < x) :
    obj_tail e r = 0.5 * ((N : ℝ) * Real.log (2 * Real.pi)
      + (N : ℝ) * Real.log ((1 / (N : ℝ))
          * ∑ t in Finset.range N, (e.getD t 0) ^ 2 / r.getD t 0)
      + (∑ t in Finset.range N, Real.log (r.getD t 0))
      + (N : ℝ)) := by
  subst hr
  exact obj_tail_formula e r (he.trans rfl)

/-- Witness for c2_likelihood_formula at e = r = [1]. -/
theorem c2_likelihood_formula_witness :
    (([1] : List ℝ).length = 1 ∧ ([1] : List ℝ).length = 1
      ∧ ∀ x ∈ ([1] : List ℝ), 0 < x)
    ∧ obj_tail [1] [1] = 0.5 * (((1 : ℕ) : ℝ) * Real.log (2 * Real.pi)
      + ((1 : ℕ) : ℝ) * Real.log ((1 / ((1 : ℕ) : ℝ))
          * ∑ t in Finset.range 1, (([1] : List ℝ).getD t 0) ^ 2 / ([1] : List ℝ).getD t 0)
      + (∑ t in Finset.range 1, Real.log (([1] : List ℝ).getD t 0))
      + ((1 : ℕ) : ℝ)) :=
  ⟨⟨rfl, rfl, by
      intro x hx
      rw [List.mem_singleton] at hx
      rw [hx]
      norm_num⟩,
    c2_likelihood_formula [1] [1] 1 rfl rfl (by
      intro x hx
      rw [List.mem_singleton] at hx
      rw [hx]
      norm_num)⟩

/-- Counterexample to claim C5: with all innovations exactly 0 the profiled
variance is 0, yet the evaluator does not fail with any error: it evaluates
the formula (log 0 is 0 under the Real.log convention, negative infinity in
floating point) and returns a plain value. -/
theorem c5_counterexample :
    obj_tail [0, 0] [1, 1] = Real.log (2 * Real.pi) + 1 := by
  unfold obj_tail log_likelihood
  norm_num [Real.log_one, Real.log_zero]
  ring

/-- Claim C5 as amended: the likelihood evaluator performs no domain check:
for every e and r of equal length, including sigma_hat = 0 or non-positive
entries of r, it evaluates the same closed formula and returns a value;
no DomainError exists in the code. -/
theorem c5_no_domain_check (e r : List ℝ) (hlen : e.length = r.length) :
    obj_tail e r = 0.5 * ((r.length : ℝ) * Real.log (2 * Real.pi)
      + (r.length : ℝ) * Real.log ((1 / (r.length : ℝ))
          * ∑ t in Finset.range r.length, (e.getD t 0) ^ 2 / r.getD t 0)
      + (∑ t in Finset.range r.length, Real.log (r.getD t 0))
      + (r.length : ℝ)) :=
  obj_tail_formula e r hlen

/-- Witness for c5_no_domain_check at the all-zero innovation input. -/
theorem c5_no_domain_check_witness :
    (([0, 0] : List ℝ).length = ([1, 1] : List ℝ).length)
    ∧ obj_tail [0, 0] [1, 1] =
      0.5 * ((([1, 1] : List ℝ).length : ℝ) * Real.log (2 * Real.pi)
        + (([1, 1] : List ℝ).length : ℝ) * Real.log ((1 / ((([1, 1] : List ℝ).length : ℕ) : ℝ))
            * ∑ t in Finset.range ([1, 1] : List ℝ).length,
                (([0, 0] : List ℝ).getD t 0) ^ 2 / ([1, 1] : List ℝ).getD t 0)
        + (∑ t in Finset.range ([1, 1] : List ℝ).length,
            Real.log (([1, 1] : List ℝ).getD t 0))
        + (([1, 1] : List ℝ).length : ℝ)) :=
  ⟨rfl, c5_no_domain_check [0, 0] [1, 1] rfl⟩

end Likelihood

section Purity

/-- The Kalman loop with the pre-allocated innovation and variance arrays
made explicit: e and r are buffers indexed by time, written in place at
position t of each iteration, the gain reading the just-written cells as in
the source.  Returns the two buffers after the loop. -/
def kalmanBuf {k : ℕ} (F : Matrix (Fin k) (Fin k) ℚ) (G : Matrix (Fin k) (Fin 1) ℚ)
    (H : Matrix (Fin 1) (Fin k) ℚ) :
    List ℚ → ℕ → Matrix (Fin k) (Fin 1) ℚ → Matrix (Fin k) (Fin k) ℚ →
      (ℕ → ℚ) → (ℕ → ℚ) → (ℕ → ℚ) × (ℕ → ℚ)
  | [], _, _, _, eb, rb => (eb, rb)
  | yt :: ys, t, x, V, eb, rb =>
    let x_pred := F * x
    let V_pred := F * V * F.transpose + G * G.transpose
    let eb2 := Function.update eb t (yt - (H * x_pred) 0 0)
    let rb2 := Function.update rb t ((H * V_pred * H.transpose) 0 0)
    let K := (V_pred * H.transpose).map (fun z => z / rb2 t)
    kalmanBuf F G H ys (t + 1) (x_pred + K.map (fun z => z * eb2 t))
      ((1 - K * H) * V_pred) eb2 rb2

/-- The buffers produced by one objective evaluation started on scratch
buffers e0 and r0. -/
def objBuffers (y theta : List ℚ) (e0 r0 : ℕ → ℚ) : (ℕ → ℚ) × (ℕ → ℚ) :=
  kalmanBuf (initialize_FGHQ (theta.take 3) ((theta.drop 3).take 2)).1
    (initialize_FGHQ (theta.take 3) ((theta.drop 3).take 2)).2.1
    (initialize_FGHQ (theta.take 3) ((theta.drop 3).take 2)).2.2.1
    y 0 0 ((100 : ℚ) • 1) e0 r0

/-- One evaluation of the objective function on theta, over the fixed
observation list y, with the initial contents of the scratch arrays e and r
made explicit (the source allocates them as zero arrays). -/
noncomputable def obj_eval (y theta : List ℚ) (e0 r0 : ℕ → ℚ) : ℝ :=
  -(log_likelihood
      ((((∑ t in Finset.range y.length,
            ((objBuffers y theta e0 r0).1 t) ^ 2 / (objBuffers y theta e0 r0).2 t)
          / (y.length : ℚ) : ℚ) : ℝ))
      ((List.range y.length).map fun t => (((objBuffers y theta e0 r0).2 t : ℚ) : ℝ)))

/-- The objective function as in the source, scratch arrays initialized to
zeros. -/
noncomputable def obj_func_likelihood (y theta : List ℚ) : ℝ :=
  obj_eval y theta (fun _ => 0) (fun _ => 0)

lemma kalmanBuf_frozen {k : ℕ} (F : Matrix (Fin k) (Fin k) ℚ)
    (G : Matrix (Fin k) (Fin 1) ℚ) (H : Matrix (Fin 1) (Fin k) ℚ) (ys : List ℚ) :
    ∀ (t0 : ℕ) (x : Matrix (Fin k) (Fin 1) ℚ) (V : Matrix (Fin k) (Fin k) ℚ)
      (eb rb : ℕ → ℚ) (i : ℕ), i < t0 →
      (kalmanBuf F G H ys t0 x V eb rb).1 i = eb i
      ∧ (kalmanBuf F G H ys t0 x V eb rb).2 i = rb i := by
  induction ys with
  | nil => exact fun t0 x V eb rb i _ => ⟨rfl, rfl⟩
  | cons yt ys ih =>
    intro t0 x V eb rb i hi
    simp only [kalmanBuf]
    constructor
    · rw [(ih (t0 + 1) _ _ _ _ i (Nat.lt_succ_of_lt hi)).1]
      exact Function.update_noteq (Nat.ne_of_lt hi) _ _
    · rw [(ih (t0 + 1) _ _ _ _ i (Nat.lt_succ_of_lt hi)).2]
      exact Function.update_noteq (Nat.ne_of_lt hi) _ _

lemma kalmanBuf_agree {k : ℕ} (F : Matrix (Fin k) (Fin k) ℚ)
    (G : Matrix (Fin k) (Fin 1) ℚ) (H : Matrix (Fin 1) (Fin k) ℚ) (ys : List ℚ) :
    ∀ (t0 : ℕ) (x : Matrix (Fin k) (Fin 1) ℚ) (V : Matrix (Fin k) (Fin k) ℚ)
      (eb rb eb2 rb2 : ℕ → ℚ) (i : ℕ), t0 ≤ i → i < t0 + ys.length →
      (kalmanBuf F G H ys t0 x V eb rb).1 i = (kalmanBuf F G H ys t0 x V eb2 rb2).1 i
      ∧ (kalmanBuf F G H ys t0 x V eb rb).2 i = (kalmanBuf F G H ys t0 x V eb2 rb2).2 i := by
  induction ys with
  | nil =>
    intro t0 x V eb rb eb2 rb2 i h1 h2
    simp only [List.length_nil, Nat.add_zero] at h2
    omega
  | cons yt ys ih =>
    intro t0 x V eb rb eb2 rb2 i h1 h2
    simp only [kalmanBuf, Function.update_same]
    rcases Nat.eq_or_lt_of_le h1 with heq | hlt
    · subst heq
      constructor
      · rw [(kalmanBuf_frozen F G H ys (t0 + 1) _ _ _ _ t0 (Nat.lt_succ_self t0)).1,
          (kalmanBuf_frozen F G H ys (t0 + 1) _ _ _ _ t0 (Nat.lt_succ_self t0)).1,
          Function.update_same, Function.update_same]
      · rw [(kalmanBuf_frozen F G H ys (t0 + 1) _ _ _ _ t0 (Nat.lt_succ_self t0)).2,
          (kalmanBuf_frozen F G H ys (t0 + 1) _ _ _ _ t0 (Nat.lt_succ_self t0)).2,
          Function.update_same, Function.update_same]
    · exact ih (t0 + 1) _ _ _ _ _ _ i hlt (by
        simp only [List.length_cons] at h2
        omega)

/-- Claim C9: the objective is a pure, deterministic function of theta and
y: two independent evaluations, with arbitrary and possibly different
initial contents of the freshly allocated scratch arrays, return identical
results. -/
theorem c9_objective_deterministic (y theta : List ℚ) (e0 r0 e1 r1 : ℕ → ℚ) :
    obj_eval y theta e0 r0 = obj_eval y theta e1 r1 := by
  have hagree : ∀ t, t < y.length →
      (objBuffers y theta e0 r0).1 t = (objBuffers y theta e1 r1).1 t
      ∧ (objBuffers y theta e0 r0).2 t = (objBuffers y theta e1 r1).2 t := by
    intro t ht
    exact kalmanBuf_agree _ _ _ y 0 _ _ e0 r0 e1 r1 t (Nat.zero_le t) (by omega)
  unfold obj_eval
  rw [show (∑ t in Finset.range y.length,
        ((objBuffers y theta e0 r0).1 t) ^ 2 / (objBuffers y theta e0 r0).2 t)
      = ∑ t in Finset.range y.length,
        ((objBuffers y theta e1 r1).1 t) ^ 2 / (objBuffers y theta e1 r1).2 t from
    Finset.sum_congr rfl fun t ht => by
      rw [(hagree t (Finset.mem_range.mp ht)).1, (hagree t (Finset.mem_range.mp ht)).2]]
  rw [show ((List.range y.length).map fun t => (((objBuffers y theta e0 r0).2 t : ℚ) : ℝ))
      = (List.range y.length).map fun t => (((objBuffers y theta e1 r1).2 t : ℚ) : ℝ) from
    List.map_congr_left fun t ht => by
      rw [(hagree t (List.mem_range.mp ht)).2]]

end Purity

end ArmaKalman
